import Mathlib

/-!
# Verification of the structural text-editing toolkit

Shallow embedding of the core routines of the `1clickonboarding-com` scripts:

* the depth-counting `<div>` locator and section remover
  (`merge_responsive.py : phase2_remove_mobile_sections`,
   `create_nbs.py : remove_section`),
* the brace-depth stylesheet tokenizer and dead-rule filter
  (`merge_responsive.py : _filter_mobile_rules`, `_extract_ids_from_css`),
* the identifier renamers
  (`rename_ids.py : rename_ids`, `rename_content_ids.py : do_replacement`),
* the CTA deduplication / revert guards
  (`optimize_site.py : phase1_deduplicate_ctas`, `revert_cta_v2.py : main`).

Documents are embedded as `List Char` (Python `str`; `len`, slicing and
`str.find`/`str.rfind`/`str.count`/`str.replace` become list operations).
Python's unbounded `int` depth counter becomes `Int`.  Where a Python loop
advances an index through a string, the embedding recurses on an explicit
fuel bounded by the string length (every loop iteration consumes at least
one character, so fuel `length` is always sufficient); this keeps every
definition a computable structural recursion.
-/

/-- Characters matched by the Python regex class `[\s>]` restricted to ASCII
(the documents are ASCII; the scripts never rely on Unicode whitespace). -/
def isPyWs (c : Char) : Bool :=
  c = ' ' || c = '\t' || c = '\n' || c = '\r' || c = '\x0b' || c = '\x0c'

/-- The characters tested by `block_text[i] in ' \t\n\r'` in
`_filter_mobile_rules`. -/
def isCssWs (c : Char) : Bool :=
  c = ' ' || c = '\t' || c = '\n' || c = '\r'

/-- A `<div>`-tag token found by the regex `<div[\s>]|</div>`:
an opening tag or a closing tag. -/
inductive Tok where
  | op : Tok
  | cl : Tok
deriving DecidableEq, Repr

/-- One step at a time scan for the regex `<div[\s>]|</div>` starting at
absolute position `pos`, exactly as `re.finditer` (phase2 of
`merge_responsive.py`) and the manual `re.match` loop of
`create_nbs.remove_section` do: a close token consumes 6 characters, an
open token consumes 5 (the class character `[\s>]` is part of the match),
anything else advances one character.  The two alternatives can never match
at the same position (`</` vs `<d`).  Fueled by the input length. -/
def divScanAux : Nat → List Char → Nat → List (Nat × Tok)
  | 0, _, _ => []
  | fuel + 1, cs, pos =>
    match cs with
    | '<' :: '/' :: 'd' :: 'i' :: 'v' :: '>' :: rest =>
        (pos, Tok.cl) :: divScanAux fuel rest (pos + 6)
    | '<' :: 'd' :: 'i' :: 'v' :: c :: rest =>
        if isPyWs c || c = '>' then
          (pos, Tok.op) :: divScanAux fuel rest (pos + 5)
        else
          divScanAux fuel ('d' :: 'i' :: 'v' :: c :: rest) (pos + 1)
    | _ :: rest => divScanAux fuel rest (pos + 1)
    | [] => []

/-- All `<div>` open/close tokens of `cs`, with absolute positions starting
at `pos`. -/
def divScan (cs : List Char) (pos : Nat) : List (Nat × Tok) :=
  divScanAux cs.length cs pos

/-- The depth loop shared by `phase2_remove_mobile_sections` and
`remove_section`: depth starts at 0, an open token increments, a close
token decrements, and as soon as the depth reaches 0 after a decrement the
scan returns the offset just past that close token (`m.end()`, i.e. its
position plus 6).  Running out of tokens yields `none` (the Python code
leaves `end_pos = -1`). -/
def locateFromTokens : List (Nat × Tok) → Int → Option Nat
  | [], _ => none
  | (pos, Tok.cl) :: ts, depth =>
      if depth - 1 = 0 then some (pos + 6) else locateFromTokens ts (depth - 1)
  | (_, Tok.op) :: ts, depth => locateFromTokens ts (depth + 1)

/-- The depth-counting element locator: scan the document for `<div>` tokens
from `divStart` onwards and run the depth loop.  This is the common core of
`phase2_remove_mobile_sections` (which uses `finditer(html, div_start)`) and
`create_nbs.remove_section`. -/
def locate_matching_close (html : List Char) (divStart : Nat) : Option Nat :=
  locateFromTokens (divScan (html.drop divStart) divStart) 0

/-- `balB ks d = true` iff scanning the token kinds `ks` starting from
relative depth `d` keeps the depth nonnegative throughout and ends exactly
at depth 0.  `balB ks 0` is the usual Dyck-word balance of `ks`. -/
def balB : List Tok → Int → Bool
  | [], d => d == 0
  | Tok.op :: ts, d => balB ts (d + 1)
  | Tok.cl :: ts, d => decide (1 ≤ d) && balB ts (d - 1)

/-! ## String primitives (Python `str` operations) -/

/-- `s.find(pat)` searching from absolute position `pos`: the position of the
first occurrence, or `none` (Python's `-1`). -/
def strFindFrom : List Char → List Char → Nat → Option Nat
  | [], pat, pos => if pat.isEmpty then some pos else none
  | c :: rest, pat, pos =>
      if pat.isPrefixOf (c :: rest) then some pos
      else strFindFrom rest pat (pos + 1)

/-- `s.rfind(pat, 0, endIdx)`: the highest position `j` with `j + pat.length
≤ endIdx` at which `pat` occurs, scanning the whole string and keeping the
last hit. -/
def strRfindAux : List Char → List Char → Nat → Nat → Option Nat → Option Nat
  | [], _, _, _, best => best
  | c :: rest, pat, pos, endIdx, best =>
      let best' :=
        if pat.isPrefixOf (c :: rest) && pos + pat.length ≤ endIdx then some pos
        else best
      strRfindAux rest pat (pos + 1) endIdx best'

/-- `s.rfind(pat, 0, endIdx)` (Python's `-1` becomes `none`). -/
def strRfindUpTo (s pat : List Char) (endIdx : Nat) : Option Nat :=
  strRfindAux s pat 0 endIdx none

/-- `pat` occurs somewhere in `s` (as a contiguous substring). -/
def occursIn (pat : List Char) : List Char → Bool
  | [] => pat.isEmpty
  | c :: rest => pat.isPrefixOf (c :: rest) || occursIn pat rest

/-- Python `s.replace(old, new)`: replace the leftmost occurrence, continue
scanning after the inserted text, never rescanning it.  Fueled (each step
consumes at least one character when `old` is nonempty; the scripts only
replace nonempty identifiers, and for an empty `old` this embedding leaves
`s` unchanged). -/
def strReplaceAux : Nat → List Char → List Char → List Char → List Char
  | 0, s, _, _ => s
  | fuel + 1, s, old, new =>
    match s with
    | [] => []
    | c :: rest =>
        if !old.isEmpty && old.isPrefixOf (c :: rest) then
          new ++ strReplaceAux fuel ((c :: rest).drop old.length) old new
        else
          c :: strReplaceAux fuel rest old new

/-- Python `s.replace(old, new)`. -/
def strReplace (s old new : List Char) : List Char :=
  strReplaceAux s.length s old new

/-- Python `s.count(pat)`: number of non-overlapping occurrences, scanned
left to right (0 for an empty pattern in this embedding; the scripts only
count nonempty identifiers). -/
def strCountAux : Nat → List Char → List Char → Nat
  | 0, _, _ => 0
  | fuel + 1, s, pat =>
    match s with
    | [] => 0
    | c :: rest =>
        if !pat.isEmpty && pat.isPrefixOf (c :: rest) then
          1 + strCountAux fuel ((c :: rest).drop pat.length) pat
        else
          strCountAux fuel rest pat

/-- Python `s.count(pat)`. -/
def strCount (s pat : List Char) : Nat :=
  strCountAux s.length s pat

/-! ## Section removal (`merge_responsive.py`, phase 2) -/

/-- The marker `f'id="{section_id}"'`. -/
def sectionMarker (sid : List Char) : List Char :=
  "id=\"".toList ++ sid ++ "\"".toList

/-- One iteration of the loop of `phase2_remove_mobile_sections` for a single
section id: find the marker, walk back to the nearest `<div`, locate the
matching close by depth counting, and excise the span.  Every failure
(marker missing, no preceding `<div`, no zero-crossing close) prints a
warning in the source and leaves the document unchanged. -/
def removeSectionStep (html sid : List Char) : List Char :=
  match strFindFrom html (sectionMarker sid) 0 with
  | none => html
  | some startIdx =>
    match strRfindUpTo html ("<div".toList) startIdx with
    | none => html
    | some divStart =>
      match locate_matching_close html divStart with
      | none => html
      | some endPos => html.take divStart ++ html.drop endPos

/-- `phase2_remove_mobile_sections`: remove the listed sections in order,
each against the current document state. -/
def phase2_remove_mobile_sections (ids : List (List Char)) (html : List Char) :
    List Char :=
  ids.foldl removeSectionStep html

/-! ## Stylesheet tokenizer and dead-rule filter (`_filter_mobile_rules`) -/

/-- The chunk kinds produced by the tokenizer inside `_filter_mobile_rules`:
`('comment', …)`, `('root', …)`, `('at-rule', …)`, `('rule', …)`,
`('other', …)`. -/
inductive CKind where
  | comment : CKind
  | root : CKind
  | atRule : CKind
  | rule : CKind
  | other : CKind
deriving DecidableEq, Repr

/-- One tokenized stylesheet chunk. -/
structure Chunk where
  kind : CKind
  text : List Char
deriving DecidableEq, Repr

/-- The leading loop of `_filter_mobile_rules`: skip whitespace (those
characters are dropped, appearing in no chunk), collect leading `/* … */`
comments as chunks, stop at the first other character or at an unterminated
comment.  Returns the comment chunks, the unconsumed remainder, and — as
instrumentation absent from the source, which simply advances its index —
the number of whitespace characters it dropped. -/
def skipLeadingAux : Nat → List Char → List Chunk × List Char × Nat
  | 0, cs => ([], cs, 0)
  | fuel + 1, cs =>
    match cs with
    | [] => ([], [], 0)
    | c :: rest =>
        if isCssWs c then
          let r := skipLeadingAux fuel rest
          (r.1, r.2.1, r.2.2 + 1)
        else if ("/*".toList).isPrefixOf (c :: rest) then
          match strFindFrom (c :: rest) ("*/".toList) 0 with
          | none => ([], c :: rest, 0)
          | some e =>
              let r := skipLeadingAux fuel ((c :: rest).drop (e + 2))
              (⟨CKind.comment, (c :: rest).take (e + 2)⟩ :: r.1, r.2.1, r.2.2)
        else ([], c :: rest, 0)

/-- The leading comment/whitespace loop of `_filter_mobile_rules`. -/
def skipLeading (cs : List Char) : List Chunk × List Char × Nat :=
  skipLeadingAux cs.length cs

/-- The inner brace loop `while j < length and depth > 0: …; j += 1`:
starting from `depth`, the number of characters consumed until the depth
returns to 0 (counting the closing brace) or the input ends. -/
def braceScan : List Char → Nat → Nat
  | _, 0 => 0
  | [], _ + 1 => 0
  | c :: rest, d + 1 =>
      1 + braceScan rest (if c = '{' then d + 2 else if c = '}' then d else d + 1)

/-- The main loop of the tokenizer in `_filter_mobile_rules`.  Each
iteration records `start = i`, skips whitespace, and classifies the next
construct (`@`-rule, `:root` block, or plain rule, each delimited by brace
depth counting; missing `{` yields a final `other` chunk).  Chunk text runs
from `start` (so inter-chunk whitespace is carried by the following chunk);
a final whitespace-only remainder is dropped by the `if i >= length: break`.
Fueled by the input length (each chunk consumes at least one character). -/
def scanChunksAux : Nat → List Char → List Chunk
  | 0, _ => []
  | fuel + 1, cs =>
    match cs with
    | [] => []
    | _ :: _ =>
      let cs1 := cs.dropWhile isCssWs
      match cs1 with
      | [] => []
      | c :: _ =>
        if c = '@' then
          match List.findIdx? (fun x => x = '{') cs1 with
          | none => [⟨CKind.other, cs⟩]
          | some bp =>
              let j := bp + 1 + braceScan (cs1.drop (bp + 1)) 1
              ⟨CKind.atRule, cs.takeWhile isCssWs ++ cs1.take j⟩ ::
                scanChunksAux fuel (cs1.drop j)
        else if (":root".toList).isPrefixOf cs1 then
          match List.findIdx? (fun x => x = '{') cs1 with
          | none => [⟨CKind.other, cs⟩]
          | some bp =>
              let j := bp + 1 + braceScan (cs1.drop (bp + 1)) 1
              ⟨CKind.root, cs.takeWhile isCssWs ++ cs1.take j⟩ ::
                scanChunksAux fuel (cs1.drop j)
        else
          match List.findIdx? (fun x => x = '{') cs1 with
          | none => [⟨CKind.other, cs⟩]
          | some bp =>
              let j := bp + 1 + braceScan (cs1.drop (bp + 1)) 1
              ⟨CKind.rule, cs.takeWhile isCssWs ++ cs1.take j⟩ ::
                scanChunksAux fuel (cs1.drop j)

/-- The main chunk loop of the tokenizer. -/
def scanChunks (cs : List Char) : List Chunk :=
  scanChunksAux cs.length cs

/-- The full tokenizer of `_filter_mobile_rules` (lines 209-298): leading
comment loop followed by the main chunk loop. -/
def tokenize_style (cs : List Char) : List Chunk :=
  (skipLeading cs).1 ++ scanChunks (skipLeading cs).2.1

/-- `''.join(chunk.text for chunk in chunks)`. -/
def joinChunks (ks : List Chunk) : List Char :=
  (ks.map Chunk.text).flatten

/-! ## Identifier extraction (`_extract_ids_from_css`) -/

/-- The alternation of the regex in `_extract_ids_from_css`, in source
order.  No alternative is a prefix of another, so at most one can match at
a given position. -/
def idAlternatives : List (List Char) :=
  ["section".toList, "row".toList, "col".toList, "heading".toList,
   "sub-heading".toList, "custom-code".toList, "video".toList,
   "paragraph".toList, "image".toList, "button".toList, "c-button".toList,
   "form".toList, "bg-section".toList, "cheading".toList,
   "csub-heading".toList, "cvideo".toList, "cparagraph".toList,
   "cimage".toList, "cbutton".toList]

/-- The character class `[A-Za-z0-9_-]`. -/
def isIdChar (c : Char) : Bool :=
  c.isAlpha || c.isDigit || c = '_' || c = '-'

/-- Try to match the id regex at the head of `s`: some alternative,
then `-`, then a greedy run of at least 6 id characters.  On success,
return the captured run and the remainder of the string after the match. -/
def tryIdAt (s : List Char) : Option (List Char × List Char) :=
  idAlternatives.findSome? fun p =>
    if p.isPrefixOf s then
      match s.drop p.length with
      | '-' :: rest =>
          let run := rest.takeWhile isIdChar
          if 6 ≤ run.length then some (run, rest.drop run.length) else none
      | _ => none
    else none

/-- `re.findall` for the id regex: scan left to right, collect captures of
non-overlapping matches (the source then wraps the list in `set(…)`; the
filter below only tests emptiness and subset inclusion, for which the raw
list is equivalent). -/
def extractIdsAux : Nat → List Char → List (List Char)
  | 0, _ => []
  | fuel + 1, cs =>
    match cs with
    | [] => []
    | c :: rest =>
      match tryIdAt (c :: rest) with
      | some r => r.1 :: extractIdsAux fuel r.2
      | none => extractIdsAux fuel rest

/-- `_extract_ids_from_css`. -/
def extract_ids_from_css (cs : List Char) : List (List Char) :=
  extractIdsAux cs.length cs

/-! ## Dead-rule filter (`_filter_mobile_rules`, lines 300-322) -/

/-- The filtering loop: `comment`/`root`/`other` chunks are kept; a chunk
with no extracted ids is kept; one whose ids all lie in the dead set is
dropped, its length added to `removed_bytes`; any other chunk is kept
verbatim. -/
def filterChunks (dead : List (List Char)) : List Chunk → List (List Char) × Nat
  | [] => ([], 0)
  | c :: cs =>
    let r := filterChunks dead cs
    if c.kind = CKind.comment ∨ c.kind = CKind.root ∨ c.kind = CKind.other then
      (c.text :: r.1, r.2)
    else
      let ids := extract_ids_from_css c.text
      if ids.isEmpty then (c.text :: r.1, r.2)
      else if ids.all (fun i => dead.contains i) then (r.1, c.text.length + r.2)
      else (c.text :: r.1, r.2)

/-- `_filter_mobile_rules`: tokenize, filter, join. -/
def filter_mobile_rules (cs : List Char) (dead : List (List Char)) :
    List Char × Nat :=
  let r := filterChunks dead (tokenize_style cs)
  (r.1.flatten, r.2)

/-- The keep-condition of the filtering loop, as a predicate on one chunk:
kept iff it is a comment/root/other chunk, or extracts no ids, or extracts
at least one id outside the dead set. -/
def keepChunk (dead : List (List Char)) (c : Chunk) : Bool :=
  (c.kind = CKind.comment ∨ c.kind = CKind.root ∨ c.kind = CKind.other : Bool)
  || (extract_ids_from_css c.text).isEmpty
  || !((extract_ids_from_css c.text).all (fun i => dead.contains i))

/-- `neverClosed l d = true` iff the brace scan of `l` from depth `d` never
returns the depth to 0, not even at end-of-input. -/
def neverClosed : List Char → Nat → Bool
  | _, 0 => false
  | [], _ + 1 => true
  | c :: rest, d + 1 =>
      neverClosed rest (if c = '{' then d + 2 else if c = '}' then d else d + 1)

/-! ## Identifier renamers -/

/-- The core loop of `rename_ids.py : rename_ids` (lines 233-242): for each
(old, new) pair in map order, count the occurrences of `old` in the current
document, replace them all, and accumulate the count.  The surrounding file
I/O, backup and JSON report are out of scope.  Returns the rewritten
document and `total_replacements`. -/
def rename_ids (m : List (List Char × List Char)) (content : List Char) :
    List Char × Nat :=
  m.foldl
    (fun acc p => (strReplace acc.1 p.1 p.2, acc.2 + strCount acc.1 p.1))
    (content, 0)

/-- The `c_prefix_map` of `rename_content_ids.py : do_replacement`, with its
`c{type}` fallback. -/
def c_prefix_for (etype : List Char) : List Char :=
  if etype = "heading".toList then "cheading".toList
  else if etype = "sub-heading".toList then "csub-heading".toList
  else if etype = "image".toList then "cimage".toList
  else if etype = "video".toList then "cvideo".toList
  else if etype = "button".toList then "cbutton".toList
  else if etype = "divider".toList then "cdivider".toList
  else 'c' :: etype

/-- `rename_content_ids.py : do_replacement`: replace the base id
`old_base = {etype}-{suffix}` with `{etype}-{new_base}`, then the c-prefixed
class `{c_prefix}-{suffix}` with `{c_prefix}-{new_base}` on the result,
returning the rewritten document and the summed replacement count.  (In the
source each replace is guarded by `if count > 0`; a replace with no
occurrences is the identity, and adding a zero count is a no-op, so the
guard on the count sum is dropped.) -/
def do_replacement (content old_base new_base etype : List Char) :
    List Char × Nat :=
  let old_id := old_base
  let old_suffix := old_base.drop (etype.length + 1)
  let new_id := etype ++ ('-' :: new_base)
  let c1 := strCount content old_id
  let content1 := if 0 < c1 then strReplace content old_id new_id else content
  let c_pre := c_prefix_for etype
  let old_c := c_pre ++ ('-' :: old_suffix)
  let new_c := c_pre ++ ('-' :: new_base)
  let c2 := strCount content1 old_c
  let content2 := if 0 < c2 then strReplace content1 old_c new_c else content1
  (content2, c1 + c2)

/-! ## CTA deduplication and revert (`optimize_site.py`, `revert_cta_v2.py`)

The two scripts share the CTA regex up to the closing-tag sequence
(`</div>\s*</div>\s*</div>` in `phase1_deduplicate_ctas`, `</div>\s*</div>`
in `revert_cta_v2.main`), so the matcher below is parameterized by the
number of closing `</div>` tags.  The greedy `\s*` sub-patterns are always
followed by a literal `<` (never a whitespace character), so maximal-munch
matching is exact and no backtracking is needed; the non-greedy `.*?` is
realized by scanning forward for the earliest position at which the closing
sequence matches. -/

/-- `<div class="top_right_sec big_cta">`. -/
def ctaLit1 : List Char := "<div class=\"top_right_sec big_cta\">".toList

/-- `<p class="toptxt">DIGITAL DOWNLOAD NOW AVAILABLE</p>`. -/
def ctaLit2 : List Char :=
  "<p class=\"toptxt\">DIGITAL DOWNLOAD NOW AVAILABLE</p>".toList

/-- `</div>`. -/
def divCloseLit : List Char := "</div>".toList

/-- Match `</div>` followed by `n - 1` further `\s*</div>` groups; return the
consumed length. -/
def matchCloseSeq : Nat → List Char → Option Nat
  | 0, _ => some 0
  | 1, s => if divCloseLit.isPrefixOf s then some 6 else none
  | n + 2, s =>
      if divCloseLit.isPrefixOf s then
        let s1 := s.drop 6
        let w := (s1.takeWhile isPyWs).length
        match matchCloseSeq (n + 1) (s1.drop w) with
        | some k => some (6 + w + k)
        | none => none
      else none

/-- Scan forward (the non-greedy `.*?`) for the first offset `g` at which the
closing sequence matches; return the gap and the closing sequence length. -/
def scanClose (n : Nat) : Nat → List Char → Nat → Option (Nat × Nat)
  | 0, _, _ => none
  | fuel + 1, s, g =>
    match matchCloseSeq n s with
    | some k => some (g, k)
    | none =>
      match s with
      | [] => none
      | _ :: rest => scanClose n fuel rest (g + 1)

/-- Try to match the whole CTA regex at the head of `s`; return the total
consumed length. -/
def tryCtaAt (n : Nat) (s : List Char) : Option Nat :=
  if ctaLit1.isPrefixOf s then
    let s1 := s.drop ctaLit1.length
    let w := (s1.takeWhile isPyWs).length
    let s2 := s1.drop w
    if ctaLit2.isPrefixOf s2 then
      let s3 := s2.drop ctaLit2.length
      match scanClose n (s3.length + 1) s3 0 with
      | some r => some (ctaLit1.length + w + ctaLit2.length + r.1 + r.2)
      | none => none
    else none
  else none

/-- `re.finditer` for the CTA pattern: leftmost non-overlapping matches as
(start, end) offset pairs. -/
def ctaScan (n : Nat) : Nat → List Char → Nat → List (Nat × Nat)
  | 0, _, _ => []
  | fuel + 1, s, pos =>
    match tryCtaAt n s with
    | some len => (pos, pos + len) :: ctaScan n fuel (s.drop len) (pos + len)
    | none =>
      match s with
      | [] => []
      | _ :: rest => ctaScan n fuel rest (pos + 1)

/-- `list(cta_pattern.finditer(html))` with `n` closing `</div>` tags. -/
def ctaMatches (n : Nat) (html : List Char) : List (Nat × Nat) :=
  ctaScan n html.length html 0

/-- The canonical CTA inner template.  `optimize_site.canonical_cta_inner`
and `revert_cta_v2.NEW_CTA_INNER` are byte-identical literals in the two
sources, so they are embedded once. -/
def cta_inner_template : List Char := ("<p class=\"toptxt\">DIGITAL DOWNLOAD NOW AVAILABLE</p>\n\t\t\t\t\t\t<div class=\"inner_white_bkg\">\n\t\t\t\t\t\t\t<div style=\"display: inline-block; height: auto; margin-bottom: 0px !important; margin-top: 0px !important;\">\n\t\t\t\t\t\t\t\t<img class=\"product_image\" src=\"images/656b079ee33f7cbc7b2c7467.png\" loading=\"lazy\">\n\t\t\t\t\t\t\t</div>\n\t\t\t\t\t\t\t<h4 class=\"txt_red\">Your Price: Only $47.00</h4>\n\t\t\t\t\t\t\t<h4 class=\"black\">List Price $297</h4>\n\t\t\t\t\t\t\t<h4 class=\"small\">You\x27re Saving $250.00 Today</h4>\n\t\t\t\t\t\t\t<p class=\"savetoday fsize15\">Download The Install Pack For Just $47.00!</p>\n\t\t\t\t\t\t\t<p class=\"fsize15 mb15\">Delivered instantly. Start installing the pack in the next 2 minutes.</p>\n\t\t\t\t\t\t\t<p class=\"avail_dwld\"><img style=\"display: inline-block;\" alt=\"download icon\" src=\"images/65638ce89762af2a5cc83b76.png\" loading=\"lazy\"> Now available for instant download</p>\n\t\t\t\t\t\t\t<iframe src=\"https://api.leadconnectorhq.com/widget/form/JfoVUQbTOONUDr9Jraq7\" style=\"width:100%;border:none;border-radius:3px;overflow:visible;height:188px;\" id=\"inline-JfoVUQbTOONUDr9Jraq7\" data-layout=\"\x7b\x27id\x27:\x27INLINE\x27\x7d\" data-trigger-type=\"alwaysShow\" data-trigger-value=\"\" data-activation-type=\"alwaysActivated\" data-activation-value=\"\" data-deactivation-type=\"neverDeactivate\" data-deactivation-value=\"\" data-form-name=\"Email-Opt In 1CCO Funnel\" data-height=\"432\" data-layout-iframe-id=\"inline-JfoVUQbTOONUDr9Jraq7\" data-form-id=\"JfoVUQbTOONUDr9Jraq7\" title=\"Email-Opt In 1CCO Funnel\" scrolling=\"no\">\n\t\t\t\t\t\t\t</iframe>\n\t\t\t\t\t\t\t<div class=\"text-center mt10\">\n\t\t\t\t\t\t\t\t<p style=\"margin:0px auto 10px;text-align:center; color: #061130;width: 100%; max-width: 290px;\">We securely process payments with 256-bit security encryption</p>\n\t\t\t\t\t\t\t\t<div class=\"text-center\">\n\t\t\t\t\t\t\t\t\t<img class=\"authorized_payments\" style=\"margin-top:10px;display: inline-block; vertical-align: middle;width: 164px;\" alt=\"secure_checkout_img\" src=\"images/657f6247a08dc56b3f061f1e.png\" loading=\"lazy\">\n\t\t\t\t\t\t\t\t</div>\n\t\t\t\t\t\t\t\t<p class=\"mbc_logo_txt\" style=\"margin:20px auto 0; color: #061130; width: 100%; max-width: 290px;\"><img alt=\"mbc_logo\" src=\"images/6508e799a8ce7068941edcae.png\" loading=\"lazy\"> BACKED BY OUR UNCONDITIONAL<br>30 DAY MONEY BACK GUARANTEE</p>\n\t\t\t\t\t\t\t</div>\n\t\t\t\t\t\t\t<div class=\"text-center\">\n\t\t\t\t\t\t\t\t<img class=\"secure_checkout_img\" style=\"display: inline-block; vertical-align: middle;width: 100%;\" alt=\"secure_checkout_img\" src=\"images/c6c86cdd-f716-4fba-8829-264762bd7588.jpg\" loading=\"lazy\">\n\t\t\t\t\t\t\t</div>\n\t\t\t\t\t\t</div>").toList

/-- `optimize_site.py : phase1_deduplicate_ctas`: find all CTA blocks; with
fewer than 15 matches, skip the rewrite and return the document unchanged;
otherwise splice the canonical replacement over each match, processing
matches in reverse order so earlier offsets stay valid. -/
def phase1_deduplicate_ctas (html : List Char) : List Char :=
  let ms := ctaMatches 3 html
  if ms.length < 15 then html
  else
    ms.reverse.foldl
      (fun h m =>
        h.take m.1 ++
          ("<div class=\"top_right_sec big_cta\">\n".toList ++
            cta_inner_template ++ "\n\t\t\t\t\t</div>".toList) ++
          h.drop m.2)
      html

/-- `.cta-email-form`. -/
def ctaCssLit : List Char := ".cta-email-form".toList

/-- Match the regex `\n*\.cta-email-form\s*\{[^}]*\}\s*` at the head of `s`;
return the consumed length.  Every greedy piece is followed by a character
it cannot itself match, so maximal munch is exact. -/
def tryCtaCssAt (s : List Char) : Option Nat :=
  let a := (s.takeWhile (fun c => c = '\n')).length
  let s1 := s.drop a
  if ctaCssLit.isPrefixOf s1 then
    let s2 := s1.drop ctaCssLit.length
    let w1 := (s2.takeWhile isPyWs).length
    match s2.drop w1 with
    | '{' :: s4 =>
        let b := (s4.takeWhile (fun c => !(c = '}'))).length
        match s4.drop b with
        | '}' :: s5 =>
            let w2 := (s5.takeWhile isPyWs).length
            some (a + ctaCssLit.length + w1 + 1 + b + 1 + w2)
        | _ => none
    | _ => none
  else none

/-- `css_pattern.sub('\n', html)`: rewrite every non-overlapping leftmost
match of the `.cta-email-form` block regex to a single newline. -/
def ctaCssSub : Nat → List Char → List Char
  | 0, s => s
  | fuel + 1, s =>
    match tryCtaCssAt s with
    | some len => '\n' :: ctaCssSub fuel (s.drop len)
    | none =>
      match s with
      | [] => []
      | c :: rest => c :: ctaCssSub fuel rest

/-- `revert_cta_v2.py : main`, as a pure document transformation (the file
read/write wrapper is out of scope): find all CTA blocks with the
two-closing-tag pattern; with fewer than 15 matches the script returns
before modifying anything, leaving the document unchanged; otherwise splice
the replacement (which deliberately omits the final `</div>`) over each
match in reverse order, then strip the `.cta-email-form` CSS blocks. -/
def revert_cta_main (html : List Char) : List Char :=
  let ms := ctaMatches 2 html
  if ms.length < 15 then html
  else
    let h1 :=
      ms.reverse.foldl
        (fun h m =>
          h.take m.1 ++
            ("<div class=\"top_right_sec big_cta\">\n".toList ++
              cta_inner_template) ++
            h.drop m.2)
        html
    ctaCssSub h1.length h1

/-! ## Helper lemmas: prefixes and occurrences -/

theorem isPrefixOf_append_self : ∀ (p t : List Char), p.isPrefixOf (p ++ t) = true := by
  intro p t
  induction p with
  | nil => simp
  | cons c p ih => simp

theorem exists_of_isPrefixOf :
    ∀ {p s : List Char}, p.isPrefixOf s = true → ∃ u, s = p ++ u := by
  intro p
  induction p with
  | nil => exact fun h => ⟨_, rfl⟩
  | cons c p ih =>
    intro s h
    cases s with
    | nil => simp [List.isPrefixOf] at h
    | cons b s =>
      simp only [List.isPrefixOf, Bool.and_eq_true, beq_iff_eq] at h
      obtain ⟨u, hu⟩ := ih h.2
      exact ⟨u, by simp [h.1, hu]⟩

theorem take_of_isPrefixOf {p s : List Char} (h : p.isPrefixOf s = true) :
    s.take p.length = p := by
  obtain ⟨u, rfl⟩ := exists_of_isPrefixOf h
  simp

theorem isPrefixOf_of_take :
    ∀ {p s : List Char}, s.take p.length = p → p.isPrefixOf s = true := by
  intro p
  induction p with
  | nil => intro s _; simp
  | cons c p ih =>
    intro s h
    cases s with
    | nil => simp at h
    | cons b s =>
      simp only [List.length_cons, List.take_succ_cons, List.cons.injEq] at h
      simp [List.isPrefixOf, h.1, ih h.2]

theorem occursIn_of_isPrefixOf {pat s : List Char} (hne : pat ≠ [])
    (h : pat.isPrefixOf s = true) : occursIn pat s = true := by
  cases s with
  | nil =>
    cases pat with
    | nil => exact absurd rfl hne
    | cons c p => simp [List.isPrefixOf] at h
  | cons c rest => simp [occursIn, h]

theorem not_occursIn_cons {pat : List Char} {c : Char} {s : List Char}
    (h : occursIn pat (c :: s) = false) :
    pat.isPrefixOf (c :: s) = false ∧ occursIn pat s = false := by
  simpa [occursIn] using h

theorem length_pos_of_ne_nil {pat : List Char} (hne : pat ≠ []) :
    1 ≤ pat.length := by
  cases pat with
  | nil => exact absurd rfl hne
  | cons a b => simp

theorem isPrefixOf_straddle {pat : List Char} (hne : pat ≠ []) (c : Char)
    (s t : List Char) (h : pat.isPrefixOf (c :: (s ++ (pat ++ t))) = true) :
    pat.isPrefixOf (c :: (s ++ pat.dropLast)) = true := by
  rcases List.eq_nil_or_concat pat with rfl | ⟨q, b, rfl⟩
  · exact absurd rfl hne
  simp only [List.concat_eq_append] at h ⊢
  apply isPrefixOf_of_take
  have h1 := take_of_isPrefixOf h
  have hsplit : (c :: (s ++ (q ++ [b]).dropLast)) ++ ([b] ++ t) =
      c :: (s ++ ((q ++ [b]) ++ t)) := by
    simp [List.append_assoc]
  rw [← hsplit] at h1
  have hlen : (q ++ [b]).length ≤ (c :: (s ++ (q ++ [b]).dropLast)).length := by
    simp
  rw [List.take_append_of_le_length hlen] at h1
  exact h1

/-! ## Helper lemmas: fuel irrelevance and unfolding for replace/count -/

theorem strReplaceAux_fuel :
    ∀ (f g : Nat) (s old new : List Char), s.length ≤ f → s.length ≤ g →
      strReplaceAux f s old new = strReplaceAux g s old new := by
  intro f
  induction f with
  | zero =>
    intro g s old new hf _
    have hs : s = [] := List.eq_nil_of_length_eq_zero (Nat.le_zero.mp hf)
    subst hs
    cases g <;> simp [strReplaceAux]
  | succ f ih =>
    intro g s old new hf hg
    cases s with
    | nil => cases g <;> simp [strReplaceAux]
    | cons c rest =>
      cases g with
      | zero => simp at hg
      | succ g =>
        simp only [strReplaceAux]
        by_cases h : (!old.isEmpty && old.isPrefixOf (c :: rest)) = true
        · have hone : 1 ≤ old.length := by
            have h1 := (Bool.and_eq_true _ _).mp h |>.1
            apply length_pos_of_ne_nil
            intro hnil
            simp [hnil] at h1
          rw [if_pos h, if_pos h]
          congr 1
          apply ih
          · simp only [List.length_drop, List.length_cons]
            simp only [List.length_cons] at hf
            omega
          · simp only [List.length_drop, List.length_cons]
            simp only [List.length_cons] at hg
            omega
        · rw [if_neg h, if_neg h]
          congr 1
          apply ih
          · simp only [List.length_cons] at hf; omega
          · simp only [List.length_cons] at hg; omega

theorem strCountAux_fuel :
    ∀ (f g : Nat) (s pat : List Char), s.length ≤ f → s.length ≤ g →
      strCountAux f s pat = strCountAux g s pat := by
  intro f
  induction f with
  | zero =>
    intro g s pat hf _
    have hs : s = [] := List.eq_nil_of_length_eq_zero (Nat.le_zero.mp hf)
    subst hs
    cases g <;> simp [strCountAux]
  | succ f ih =>
    intro g s pat hf hg
    cases s with
    | nil => cases g <;> simp [strCountAux]
    | cons c rest =>
      cases g with
      | zero => simp at hg
      | succ g =>
        simp only [strCountAux]
        by_cases h : (!pat.isEmpty && pat.isPrefixOf (c :: rest)) = true
        · have hone : 1 ≤ pat.length := by
            have h1 := (Bool.and_eq_true _ _).mp h |>.1
            apply length_pos_of_ne_nil
            intro hnil
            simp [hnil] at h1
          rw [if_pos h, if_pos h]
          congr 1
          apply ih
          · simp only [List.length_drop, List.length_cons]
            simp only [List.length_cons] at hf
            omega
          · simp only [List.length_drop, List.length_cons]
            simp only [List.length_cons] at hg
            omega
        · rw [if_neg h, if_neg h]
          apply ih
          · simp only [List.length_cons] at hf; omega
          · simp only [List.length_cons] at hg; omega

theorem strReplace_cons (c : Char) (s old new : List Char) :
    strReplace (c :: s) old new =
      if !old.isEmpty && old.isPrefixOf (c :: s) then
        new ++ strReplace ((c :: s).drop old.length) old new
      else c :: strReplace s old new := by
  show strReplaceAux ((c :: s).length) (c :: s) old new = _
  simp only [List.length_cons, strReplaceAux]
  by_cases h : (!old.isEmpty && old.isPrefixOf (c :: s)) = true
  · have hone : 1 ≤ old.length := by
      have h1 := (Bool.and_eq_true _ _).mp h |>.1
      apply length_pos_of_ne_nil
      intro hnil
      simp [hnil] at h1
    rw [if_pos h, if_pos h]
    congr 1
    apply strReplaceAux_fuel
    · simp only [List.length_drop, List.length_cons]; omega
    · simp
  · rw [if_neg h, if_neg h]
    rfl

theorem strCount_cons (c : Char) (s pat : List Char) :
    strCount (c :: s) pat =
      if !pat.isEmpty && pat.isPrefixOf (c :: s) then
        1 + strCount ((c :: s).drop pat.length) pat
      else strCount s pat := by
  show strCountAux ((c :: s).length) (c :: s) pat = _
  simp only [List.length_cons, strCountAux]
  by_cases h : (!pat.isEmpty && pat.isPrefixOf (c :: s)) = true
  · have hone : 1 ≤ pat.length := by
      have h1 := (Bool.and_eq_true _ _).mp h |>.1
      apply length_pos_of_ne_nil
      intro hnil
      simp [hnil] at h1
    rw [if_pos h, if_pos h]
    congr 1
    apply strCountAux_fuel
    · simp only [List.length_drop, List.length_cons]; omega
    · simp
  · rw [if_neg h, if_neg h]
    rfl

/-! ## Replace / count over designated occurrences -/

theorem strReplace_of_not_occurs :
    ∀ {s : List Char} (pat new : List Char), occursIn pat s = false →
      strReplace s pat new = s := by
  intro s
  induction s with
  | nil => intro pat new _; rfl
  | cons c rest ih =>
    intro pat new h
    obtain ⟨h1, h2⟩ := not_occursIn_cons h
    rw [strReplace_cons, if_neg, ih pat new h2]
    simp [h1]

theorem strCount_of_not_occurs :
    ∀ {s : List Char} (pat : List Char), occursIn pat s = false →
      strCount s pat = 0 := by
  intro s
  induction s with
  | nil => intro pat _; rfl
  | cons c rest ih =>
    intro pat h
    obtain ⟨h1, h2⟩ := not_occursIn_cons h
    rw [strCount_cons, if_neg, ih pat h2]
    simp [h1]

theorem strReplace_head :
    ∀ (s t pat new : List Char), pat ≠ [] →
      occursIn pat (s ++ pat.dropLast) = false →
      strReplace (s ++ (pat ++ t)) pat new = s ++ (new ++ strReplace t pat new) := by
  intro s
  induction s with
  | nil =>
    intro t pat new hne _
    cases pat with
    | nil => exact absurd rfl hne
    | cons p pr =>
      rw [List.nil_append, List.cons_append, strReplace_cons]
      rw [if_pos]
      · rw [← List.cons_append, List.drop_left]
        simp
      · simp only [Bool.and_eq_true]
        constructor
        · simp
        · exact isPrefixOf_append_self (p :: pr) t
  | cons c s ih =>
    intro t pat new hne h
    rw [List.cons_append] at h
    obtain ⟨h1, h2⟩ := not_occursIn_cons h
    rw [List.cons_append, strReplace_cons, if_neg, ih t pat new hne h2]
    · rfl
    · simp only [Bool.and_eq_true, not_and]
      intro _
      intro hpre
      exact absurd (isPrefixOf_straddle hne c s t hpre) (by simp [h1])

theorem strCount_head :
    ∀ (s t pat : List Char), pat ≠ [] →
      occursIn pat (s ++ pat.dropLast) = false →
      strCount (s ++ (pat ++ t)) pat = 1 + strCount t pat := by
  intro s
  induction s with
  | nil =>
    intro t pat hne _
    cases pat with
    | nil => exact absurd rfl hne
    | cons p pr =>
      rw [List.nil_append, List.cons_append, strCount_cons]
      rw [if_pos]
      · rw [← List.cons_append, List.drop_left]
      · simp only [Bool.and_eq_true]
        constructor
        · simp
        · exact isPrefixOf_append_self (p :: pr) t
  | cons c s ih =>
    intro t pat hne h
    rw [List.cons_append] at h
    obtain ⟨h1, h2⟩ := not_occursIn_cons h
    rw [List.cons_append, strCount_cons, if_neg, ih t pat hne h2]
    simp only [Bool.and_eq_true, not_and]
    intro _
    intro hpre
    exact absurd (isPrefixOf_straddle hne c s t hpre) (by simp [h1])

/-- `parts` interleaved with the separator `sep`:
`s₀ ++ sep ++ s₁ ++ … ++ sep ++ sₙ`. -/
def joinWith (sep : List Char) : List (List Char) → List Char
  | [] => []
  | [s] => s
  | s :: s2 :: rest => s ++ (sep ++ joinWith sep (s2 :: rest))

/-- The designated occurrences of `pat` in `joinWith pat parts` are the only
ones and do not overlap: no occurrence of `pat` starts inside a part
(including a start that straddles into the following separator), and none
occurs in the final part. -/
def sepOk (pat : List Char) : List (List Char) → Bool
  | [] => true
  | [s] => !occursIn pat s
  | s :: s2 :: rest => !occursIn pat (s ++ pat.dropLast) && sepOk pat (s2 :: rest)

theorem strReplace_joinWith :
    ∀ (parts : List (List Char)) (pat new : List Char), pat ≠ [] →
      sepOk pat parts = true →
      strReplace (joinWith pat parts) pat new = joinWith new parts := by
  intro parts
  induction parts with
  | nil => intro pat new _ _; rfl
  | cons s rest ih =>
    intro pat new hne h
    cases rest with
    | nil =>
      simp only [sepOk, Bool.not_eq_true'] at h
      exact strReplace_of_not_occurs pat new h
    | cons s2 rest2 =>
      simp only [sepOk, Bool.and_eq_true, Bool.not_eq_true'] at h
      show strReplace (s ++ (pat ++ joinWith pat (s2 :: rest2))) pat new = _
      rw [strReplace_head s _ pat new hne h.1, ih pat new hne h.2]
      rfl

theorem strCount_joinWith :
    ∀ (parts : List (List Char)) (pat : List Char), pat ≠ [] →
      sepOk pat parts = true →
      strCount (joinWith pat parts) pat = parts.length - 1 := by
  intro parts
  induction parts with
  | nil => intro pat _ _; rfl
  | cons s rest ih =>
    intro pat hne h
    cases rest with
    | nil =>
      simp only [sepOk, Bool.not_eq_true'] at h
      show strCount s pat = 0
      exact strCount_of_not_occurs pat h
    | cons s2 rest2 =>
      simp only [sepOk, Bool.and_eq_true, Bool.not_eq_true'] at h
      show strCount (s ++ (pat ++ joinWith pat (s2 :: rest2))) pat = _
      rw [strCount_head s _ pat hne h.1, ih pat hne h.2]
      simp [Nat.add_comm]

/-! ## Single-character replace / count (for the rename collision analysis) -/

theorem isPrefixOf_singleton (a c : Char) (rest : List Char) :
    ([a] : List Char).isPrefixOf (c :: rest) = (a == c) := by
  simp [List.isPrefixOf]

theorem strReplace_single (s : List Char) (a x : Char) :
    strReplace s [a] [x] = s.map (fun c => if c = a then x else c) := by
  induction s with
  | nil => rfl
  | cons c rest ih =>
    rw [strReplace_cons]
    have hg : (!([a] : List Char).isEmpty && ([a] : List Char).isPrefixOf (c :: rest))
        = (a == c) := by
      simp [isPrefixOf_singleton]
    rw [hg]
    by_cases hc : c = a
    · subst hc
      rw [if_pos (by simp)]
      simp [ih]
    · rw [if_neg (by simp only [beq_iff_eq]; exact Ne.symm hc)]
      simp only [List.map_cons]
      rw [if_neg hc, ih]

theorem strCount_single (s : List Char) (a : Char) :
    strCount s [a] = s.count a := by
  induction s with
  | nil => rfl
  | cons c rest ih =>
    rw [strCount_cons]
    have hg : (!([a] : List Char).isEmpty && ([a] : List Char).isPrefixOf (c :: rest))
        = (a == c) := by
      simp [isPrefixOf_singleton]
    rw [hg]
    by_cases hc : c = a
    · subst hc
      rw [if_pos (by simp)]
      simp [ih, List.count_cons, Nat.add_comm]
    · rw [if_neg (by simp only [beq_iff_eq]; exact Ne.symm hc)]
      rw [ih, List.count_cons]
      simp [hc]

/-! ## Locator lemmas: balanced token runs are skipped at positive depth -/

theorem locate_append_bal :
    ∀ (ws : List (Nat × Tok)) (r : Int) (ts : List (Nat × Tok)) (d : Int),
      balB (ws.map Prod.snd) r = true → 1 ≤ d →
      locateFromTokens (ws ++ ts) (d + r) = locateFromTokens ts d := by
  intro ws
  induction ws with
  | nil =>
    intro r ts d hb hd
    simp only [List.map_nil, balB, beq_iff_eq] at hb
    simp [hb]
  | cons w ws ih =>
    intro r ts d hb hd
    obtain ⟨pos, k⟩ := w
    cases k with
    | op =>
      simp only [List.map_cons, balB] at hb
      show locateFromTokens (ws ++ ts) (d + r + 1) = locateFromTokens ts d
      have : d + r + 1 = d + (r + 1) := by ring
      rw [this]
      exact ih (r + 1) ts d hb hd
    | cl =>
      simp only [List.map_cons, balB, Bool.and_eq_true, decide_eq_true_eq] at hb
      show (if d + r - 1 = 0 then some (pos + 6)
            else locateFromTokens (ws ++ ts) (d + r - 1)) = locateFromTokens ts d
      rw [if_neg (by omega)]
      have : d + r - 1 = d + (r - 1) := by ring
      rw [this]
      exact ih (r - 1) ts d hb.2 hd

theorem locate_of_shape {ts ws rest : List (Nat × Tok)} {p0 q0 : Nat}
    (hts : ts = (p0, Tok.op) :: (ws ++ (q0, Tok.cl) :: rest))
    (hb : balB (ws.map Prod.snd) 0 = true) :
    locateFromTokens ts 0 = some (q0 + 6) := by
  subst hts
  show locateFromTokens (ws ++ (q0, Tok.cl) :: rest) (0 + 1) = some (q0 + 6)
  have h1 : (0 : Int) + 1 = 1 + 0 := by ring
  rw [h1, locate_append_bal ws 0 _ 1 hb (by omega)]
  show (if (1 : Int) - 1 = 0 then some (q0 + 6)
        else locateFromTokens rest (1 - 1)) = some (q0 + 6)
  rw [if_pos (by omega)]

/-- Occurrence count of a token kind. -/
def countTok (k : Tok) : List Tok → Nat
  | [] => 0
  | t :: ts => (if t = k then 1 else 0) + countTok k ts

theorem bal_count :
    ∀ (ks : List Tok) (r : Int), balB ks r = true →
      (countTok Tok.op ks : Int) + r = countTok Tok.cl ks := by
  intro ks
  induction ks with
  | nil =>
    intro r hb
    simp only [balB, beq_iff_eq] at hb
    simp [countTok, hb]
  | cons k ks ih =>
    intro r hb
    cases k with
    | op =>
      simp only [balB] at hb
      have := ih (r + 1) hb
      simp only [countTok, if_pos rfl, if_neg (by decide : ¬ Tok.op = Tok.cl)]
      push_cast
      omega
    | cl =>
      simp only [balB, Bool.and_eq_true, decide_eq_true_eq] at hb
      have := ih (r - 1) hb.2
      simp only [countTok, if_pos rfl, if_neg (by decide : ¬ Tok.cl = Tok.op)]
      push_cast
      omega

/-! ## Tokenizer round-trip lemmas -/

theorem joinChunks_nil : joinChunks [] = [] := rfl

theorem joinChunks_cons (k : Chunk) (ks : List Chunk) :
    joinChunks (k :: ks) = k.text ++ joinChunks ks := by
  simp [joinChunks]

theorem joinChunks_append (a b : List Chunk) :
    joinChunks (a ++ b) = joinChunks a ++ joinChunks b := by
  simp [joinChunks]

theorem skipLeadingAux_no_ws :
    ∀ (f : Nat) (cs : List Char), (skipLeadingAux f cs).2.2 = 0 →
      joinChunks (skipLeadingAux f cs).1 ++ (skipLeadingAux f cs).2.1 = cs := by
  intro f
  induction f with
  | zero => intro cs _; simp [skipLeadingAux, joinChunks]
  | succ f ih =>
    intro cs h
    cases cs with
    | nil => simp [skipLeadingAux, joinChunks]
    | cons c rest =>
      by_cases hws : isCssWs c = true
      · exfalso
        simp only [skipLeadingAux, if_pos hws] at h
        omega
      · by_cases hcm : ("/*".toList).isPrefixOf (c :: rest) = true
        · simp only [skipLeadingAux, if_neg hws, if_pos hcm] at h ⊢
          cases hf : strFindFrom (c :: rest) ("*/".toList) 0 with
          | none => simp [hf, joinChunks]
          | some e =>
            simp only [hf] at h ⊢
            have hrec := ih ((c :: rest).drop (e + 2)) h
            rw [joinChunks_cons, List.append_assoc, hrec]
            exact List.take_append_drop (e + 2) (c :: rest)
        · simp only [skipLeadingAux, if_neg hws, if_neg hcm]
          simp [joinChunks]

theorem scanChunksAux_round_trip :
    ∀ (f : Nat) (cs : List Char), cs.length ≤ f →
      ∃ w, w.all isCssWs = true ∧ joinChunks (scanChunksAux f cs) ++ w = cs := by
  intro f
  induction f with
  | zero =>
    intro cs hf
    have hs : cs = [] := List.eq_nil_of_length_eq_zero (Nat.le_zero.mp hf)
    subst hs
    exact ⟨[], rfl, by simp [scanChunksAux, joinChunks]⟩
  | succ f ih =>
    intro cs hf
    cases cs with
    | nil => exact ⟨[], rfl, by simp [scanChunksAux, joinChunks]⟩
    | cons c rest =>
      cases hcs1 : (c :: rest).dropWhile isCssWs with
      | nil =>
        refine ⟨c :: rest, ?_, ?_⟩
        · rw [List.all_eq_true]
          intro x hx
          exact List.dropWhile_eq_nil_iff.mp hcs1 x hx
        · simp only [scanChunksAux, hcs1]
          simp [joinChunks]
      | cons c1 cs1' =>
        have hlen1 : (c1 :: cs1').length ≤ (c :: rest).length := by
          have := congrArg List.length (List.takeWhile_append_dropWhile isCssWs (c :: rest))
          rw [hcs1] at this
          simp only [List.length_append] at this
          omega
        have hjoin : ∀ (kind : CKind) (bp : Nat),
            ∃ w, w.all isCssWs = true ∧
              joinChunks
                (⟨kind, (c :: rest).takeWhile isCssWs ++
                    (c1 :: cs1').take (bp + 1 + braceScan ((c1 :: cs1').drop (bp + 1)) 1)⟩ ::
                  scanChunksAux f
                    ((c1 :: cs1').drop (bp + 1 + braceScan ((c1 :: cs1').drop (bp + 1)) 1))) ++
                w = c :: rest := by
          intro kind bp
          set j := bp + 1 + braceScan ((c1 :: cs1').drop (bp + 1)) 1 with hj
          have hjpos : 1 ≤ j := by omega
          have hlend : ((c1 :: cs1').drop j).length ≤ f := by
            simp only [List.length_drop]
            simp only [List.length_cons] at hlen1 hf ⊢
            omega
          obtain ⟨w, hw, hrt⟩ := ih ((c1 :: cs1').drop j) hlend
          refine ⟨w, hw, ?_⟩
          rw [joinChunks_cons, List.append_assoc, hrt, List.append_assoc,
            List.take_append_drop, ← hcs1]
          exact List.takeWhile_append_dropWhile isCssWs (c :: rest)
        by_cases hat : c1 = '@'
        · cases hfi : List.findIdx? (fun x => x = '{') (c1 :: cs1') with
          | none =>
            refine ⟨[], rfl, ?_⟩
            simp only [scanChunksAux, hcs1, if_pos hat, hfi]
            simp [joinChunks]
          | some bp =>
            obtain ⟨w, hw, hrt⟩ := hjoin CKind.atRule bp
            refine ⟨w, hw, ?_⟩
            simp only [scanChunksAux, hcs1, if_pos hat, hfi]
            exact hrt
        · by_cases hroot : (":root".toList).isPrefixOf (c1 :: cs1') = true
          · cases hfi : List.findIdx? (fun x => x = '{') (c1 :: cs1') with
            | none =>
              refine ⟨[], rfl, ?_⟩
              simp only [scanChunksAux, hcs1, if_neg hat, if_pos hroot, hfi]
              simp [joinChunks]
            | some bp =>
              obtain ⟨w, hw, hrt⟩ := hjoin CKind.root bp
              refine ⟨w, hw, ?_⟩
              simp only [scanChunksAux, hcs1, if_neg hat, if_pos hroot, hfi]
              exact hrt
          · cases hfi : List.findIdx? (fun x => x = '{') (c1 :: cs1') with
            | none =>
              refine ⟨[], rfl, ?_⟩
              simp only [scanChunksAux, hcs1, if_neg hat, if_neg hroot, hfi]
              simp [joinChunks]
            | some bp =>
              obtain ⟨w, hw, hrt⟩ := hjoin CKind.rule bp
              refine ⟨w, hw, ?_⟩
              simp only [scanChunksAux, hcs1, if_neg hat, if_neg hroot, hfi]
              exact hrt

theorem braceScan_of_neverClosed :
    ∀ (l : List Char) (d : Nat), neverClosed l d = true → braceScan l d = l.length := by
  intro l
  induction l with
  | nil =>
    intro d h
    cases d with
    | zero => simp [neverClosed] at h
    | succ d => rfl
  | cons c rest ih =>
    intro d h
    cases d with
    | zero => simp [neverClosed] at h
    | succ d =>
      simp only [neverClosed] at h
      simp only [braceScan, List.length_cons]
      rw [ih _ h]
      omega

theorem countTok_append (k : Tok) (a b : List Tok) :
    countTok k (a ++ b) = countTok k a + countTok k b := by
  induction a with
  | nil => simp [countTok]
  | cons t a ih =>
    show (if t = k then 1 else 0) + countTok k (a ++ b) =
      ((if t = k then 1 else 0) + countTok k a) + countTok k b
    rw [ih]
    omega

/-- Wrapper of `skipLeadingAux_no_ws` for the `skipLeading` entry point. -/
theorem skipLeading_no_ws (cs : List Char) (h : (skipLeading cs).2.2 = 0) :
    joinChunks (skipLeading cs).1 ++ (skipLeading cs).2.1 = cs :=
  skipLeadingAux_no_ws cs.length cs h

/-- Wrapper of `scanChunksAux_round_trip` for the `scanChunks` entry point. -/
theorem scanChunks_round_trip (cs : List Char) :
    ∃ w, w.all isCssWs = true ∧ joinChunks (scanChunks cs) ++ w = cs :=
  scanChunksAux_round_trip cs.length cs (le_refl _)

/-- C1, counterexample: the tokenizer of `_filter_mobile_rules` is *not*
byte-for-byte lossless.  On the stylesheet text `" "` the leading loop
drops the whitespace character and produces no chunk, so the concatenation
of all chunk texts is `""`, not the input. -/
theorem c1_counterexample :
    joinChunks (tokenize_style (" ".toList)) ≠ " ".toList := by decide

/-- C1, amended: for every stylesheet text in which the leading
comment-skipping loop drops no whitespace (no whitespace before or between
leading comments), concatenating the texts of the produced chunks in order
reconstructs the input exactly up to a dropped trailing whitespace-only
run: `joinChunks (tokenize_style cs) ++ w = cs` for some all-whitespace
`w`. -/
theorem c1_round_trip_amended (cs : List Char)
    (h : (skipLeading cs).2.2 = 0) :
    ∃ w, w.all isCssWs = true ∧ joinChunks (tokenize_style cs) ++ w = cs := by
  have h1 := skipLeading_no_ws cs h
  obtain ⟨w, hw, h2⟩ := scanChunks_round_trip (skipLeading cs).2.1
  refine ⟨w, hw, ?_⟩
  show joinChunks ((skipLeading cs).1 ++ scanChunks (skipLeading cs).2.1) ++ w = cs
  rw [joinChunks_append, List.append_assoc, h2]
  exact h1

/-- Witness for `c1_round_trip_amended` at the stylesheet
`"/*c*/a{color:red} "` (no leading whitespace, one trailing space). -/
theorem c1_round_trip_witness :
    (skipLeading ("/*c*/a\x7bcolor:red\x7d ".toList)).2.2 = 0 ∧
      ∃ w, w.all isCssWs = true ∧
        joinChunks (tokenize_style ("/*c*/a\x7bcolor:red\x7d ".toList)) ++ w =
          "/*c*/a\x7bcolor:red\x7d ".toList :=
  ⟨by decide, c1_round_trip_amended _ (by decide)⟩

/-- C2: for every document and start offset whose `<div>`-token stream is an
open token at the start offset, followed by a balanced run of tokens,
followed by a close token at `q0` (this token shape is exactly
well-formedness of the element opened at `start`), the depth-counting
locator returns the offset immediately after that matching close token
(`q0 + 6`), and the scanned element — open token, balanced interior, close
token — contains equally many opens and closes.  Instantiating the interior
with the tokens of N-1 nested elements gives the outermost close for the
outermost open; instantiating at an inner open gives that inner element's
close. -/
theorem c2_locate_matching_close_correct (html : List Char) (start : Nat)
    (ws rest : List (Nat × Tok)) (q0 : Nat)
    (hscan : divScan (html.drop start) start =
      (start, Tok.op) :: (ws ++ (q0, Tok.cl) :: rest))
    (hbal : balB (ws.map Prod.snd) 0 = true) :
    locate_matching_close html start = some (q0 + 6) ∧
      countTok Tok.op (Tok.op :: (ws.map Prod.snd ++ [Tok.cl])) =
        countTok Tok.cl (Tok.op :: (ws.map Prod.snd ++ [Tok.cl])) := by
  constructor
  · show locateFromTokens (divScan (html.drop start) start) 0 = _
    rw [hscan]
    exact locate_of_shape rfl hbal
  · have h := bal_count (ws.map Prod.snd) 0 hbal
    simp only [countTok, countTok_append, if_pos rfl,
      if_neg (by decide : ¬ Tok.op = Tok.cl), if_neg (by decide : ¬ Tok.cl = Tok.op)]
    omega

/-- Witness for `c2_locate_matching_close_correct` on two nested divs:
starting at the outer open of `<div ><div ></div></div>` the locator
returns 24, the offset just past the outermost `</div>`. -/
theorem c2_locate_witness :
    locate_matching_close ("<div ><div ></div></div>".toList) 0 = some 24 ∧
      countTok Tok.op
          (Tok.op :: ([(6, Tok.op), (12, Tok.cl)].map Prod.snd ++ [Tok.cl])) =
        countTok Tok.cl
          (Tok.op :: ([(6, Tok.op), (12, Tok.cl)].map Prod.snd ++ [Tok.cl])) :=
  c2_locate_matching_close_correct ("<div ><div ></div></div>".toList) 0
    [(6, Tok.op), (12, Tok.cl)] [] 18 (by decide) (by decide)

/-- C3: the dead-rule filter is exact.  For every chunk list and dead set,
the kept texts are exactly the texts of the chunks satisfying the keep
condition (comment/root/other chunks always kept; chunks with no extracted
ids kept; chunks with at least one live id kept — which covers plain rule
chunks referencing a live id), in input order; the removed-byte count is
the summed length of the dropped chunks (those whose nonempty id set lies
inside the dead set); and the kept output is a sublist of the input texts
(order preservation). -/
theorem c3_dead_rule_filter_exact (dead : List (List Char)) (chunks : List Chunk) :
    filterChunks dead chunks =
      ((chunks.filter (keepChunk dead)).map Chunk.text,
        ((chunks.filter (fun c => !keepChunk dead c)).map
          (fun c => c.text.length)).sum) ∧
      List.Sublist (filterChunks dead chunks).1 (chunks.map Chunk.text) := by
  have hmain : filterChunks dead chunks =
      ((chunks.filter (keepChunk dead)).map Chunk.text,
        ((chunks.filter (fun c => !keepChunk dead c)).map
          (fun c => c.text.length)).sum) := by
    induction chunks with
    | nil => rfl
    | cons c cs ih =>
      by_cases h1 : c.kind = CKind.comment ∨ c.kind = CKind.root ∨ c.kind = CKind.other
      · have hk : keepChunk dead c = true := by
          simp [keepChunk, h1]
        simp only [filterChunks, if_pos h1, List.filter_cons, hk, Bool.not_true,
          if_pos, if_neg, Bool.false_eq_true, ite_false, ite_true, List.map_cons, ih]
      · by_cases h2 : (extract_ids_from_css c.text).isEmpty = true
        · have hk : keepChunk dead c = true := by
            simp [keepChunk, h2]
          simp only [filterChunks, if_neg h1, if_pos h2, List.filter_cons, hk,
            Bool.not_true, Bool.false_eq_true, ite_false, ite_true, List.map_cons, ih]
        · by_cases h3 :
              (extract_ids_from_css c.text).all (fun i => dead.contains i) = true
          · have hk : keepChunk dead c = false := by
              simp only [keepChunk, h3, Bool.not_true, Bool.or_false]
              simp [h1, h2]
            simp only [filterChunks, if_neg h1,
              if_neg h2, if_pos h3, List.filter_cons, hk,
              Bool.not_false, Bool.false_eq_true, ite_false, ite_true,
              List.map_cons, List.sum_cons, ih]
          · have hC : (extract_ids_from_css c.text).all
                (fun i => dead.contains i) = false := by
              simpa using h3
            have hk : keepChunk dead c = true := by
              simp only [keepChunk, hC, Bool.not_false, Bool.or_true]
            simp only [filterChunks, if_neg h1, if_neg h2,
              if_neg h3, List.filter_cons, hk, Bool.not_true, Bool.false_eq_true,
              ite_false, ite_true, List.map_cons, ih]
  refine ⟨hmain, ?_⟩
  rw [hmain]
  exact (List.filter_sublist chunks).map Chunk.text

/-- C5, counterexample: the dead-rule filter does *not* recurse into
at-rule bodies.  For the at-rule chunk
`@media m{section-aaaaaa{x}section-bbbbbb{y}}` with dead set `{aaaaaa}`
(one dead sub-rule, one live), the filter keeps the chunk byte-for-byte
unchanged with zero removed bytes — the inner all-dead sub-rule
`section-aaaaaa{x}` is not removed, contradicting the claimed recursive
re-tokenization. -/
theorem c5_counterexample :
    filterChunks [("aaaaaa".toList)]
        [⟨CKind.atRule,
          "@media m\x7bsection-aaaaaa\x7bx\x7dsection-bbbbbb\x7by\x7d\x7d".toList⟩] =
      (["@media m\x7bsection-aaaaaa\x7bx\x7dsection-bbbbbb\x7by\x7d\x7d".toList], 0) := by
  decide

/-- C5, amended: an at-rule chunk that references at least one live
identifier is kept verbatim — the filter performs no recursive
tokenization or sub-rule filtering of the at-rule body, so dead sub-rules
inside a mixed at-rule are retained. -/
theorem c5_mixed_atrule_kept_verbatim (dead : List (List Char))
    (chunks : List Chunk) (c : Chunk) (hmem : c ∈ chunks)
    (_hkind : c.kind = CKind.atRule)
    (hne : (extract_ids_from_css c.text).isEmpty = false)
    (hlive : (extract_ids_from_css c.text).all (fun i => dead.contains i) = false) :
    c.text ∈ (filterChunks dead chunks).1 := by
  induction chunks with
  | nil => cases hmem
  | cons d cs ih =>
    rcases List.mem_cons.mp hmem with rfl | hmem'
    · show c.text ∈ (filterChunks dead (c :: cs)).1
      by_cases h1 : c.kind = CKind.comment ∨ c.kind = CKind.root ∨ c.kind = CKind.other
      · simp only [filterChunks, if_pos h1]
        exact List.mem_cons_self _ _
      · simp only [filterChunks, if_neg h1, hne, Bool.false_eq_true, ite_false,
          hlive, ite_true]
        exact List.mem_cons_self _ _
    · have hin := ih hmem'
      show c.text ∈ (filterChunks dead (d :: cs)).1
      by_cases h1 : d.kind = CKind.comment ∨ d.kind = CKind.root ∨ d.kind = CKind.other
      · simp only [filterChunks, if_pos h1]
        exact List.mem_cons_of_mem _ hin
      · by_cases h2 : (extract_ids_from_css d.text).isEmpty = true
        · simp only [filterChunks, if_neg h1, if_pos h2]
          exact List.mem_cons_of_mem _ hin
        · by_cases h3 :
              (extract_ids_from_css d.text).all (fun i => dead.contains i) = true
          · simp only [filterChunks, if_neg h1, if_neg h2, if_pos h3]
            exact hin
          · simp only [filterChunks, if_neg h1, if_neg h2, if_neg h3]
            exact List.mem_cons_of_mem _ hin

/-- Witness for `c5_mixed_atrule_kept_verbatim`: a mixed at-rule referencing
the live id `cccccc` alongside the dead id `aaaaaa` is kept verbatim. -/
theorem c5_witness :
    ("@media m\x7bsection-aaaaaa\x7bq\x7dsection-cccccc\x7bz\x7d\x7d".toList) ∈
      (filterChunks [("aaaaaa".toList)]
        [⟨CKind.atRule,
          "@media m\x7bsection-aaaaaa\x7bq\x7dsection-cccccc\x7bz\x7d\x7d".toList⟩]).1 :=
  c5_mixed_atrule_kept_verbatim [("aaaaaa".toList)] _ _
    (List.mem_singleton.mpr rfl) rfl (by decide) (by decide)

/-- C4, counterexample: the renamer performs no collision detection.
Applying the map `{"a": "x", "b": "x"}` (two pairs mapping onto the same
new identifier) to the document `"ab"` raises nothing: the rename runs to
completion, mutates the document to `"xx"`, and reports 2 replacements —
the document is not left unchanged, and no `IdentifierCollisionError`
exists anywhere in the code (the sources contain no raise statement at
all). -/
theorem c4_counterexample :
    rename_ids [("a".toList, "x".toList), ("b".toList, "x".toList)]
        ("ab".toList) = ("xx".toList, 2) ∧
      ("xx".toList : List Char) ≠ "ab".toList := by
  refine ⟨by decide, by decide⟩

/-- C4, amended: the rename loop applies a colliding map silently.  For any
document and single-character identifiers with `a ≠ b` and `b ≠ x`, the
colliding map `{a: x, b: x}` is committed in full: every occurrence of
both old identifiers becomes the shared new identifier and the reported
count is the total number of occurrences of both.  No error path exists. -/
theorem c4_no_collision_check (doc : List Char) (a b x : Char)
    (hab : a ≠ b) (hbx : b ≠ x) :
    rename_ids [([a], [x]), ([b], [x])] doc =
      (doc.map (fun c => if c = a then x else if c = b then x else c),
        doc.count a + doc.count b) := by
  have hcnt : ∀ (l : List Char),
      (l.map (fun c => if c = a then x else c)).count b = l.count b := by
    intro l
    induction l with
    | nil => rfl
    | cons c rest ih =>
      simp only [List.map_cons, List.count_cons, ih]
      by_cases hca : c = a
      · by_cases hcb : c = b
        · exact absurd (hca.symm.trans hcb) hab
        · simp [hca, hcb, Ne.symm hbx, hab]
      · simp [hca]
  show (strReplace (strReplace doc [a] [x]) [b] [x],
      (0 + strCount doc [a]) + strCount (strReplace doc [a] [x]) [b]) = _
  rw [strReplace_single, strReplace_single, strCount_single, strCount_single,
    List.map_map, hcnt]
  have hfun : ((fun c => if c = b then x else c) ∘ (fun c => if c = a then x else c))
      = fun c => if c = a then x else if c = b then x else c := by
    funext c
    simp only [Function.comp]
    by_cases hca : c = a
    · rw [if_pos hca, if_pos hca]
      split_ifs <;> rfl
    · rw [if_neg hca, if_neg hca]
  rw [hfun]
  simp

/-- Witness for `c4_no_collision_check` on the document `"ab"` with the
colliding map `{'a': 'x', 'b': 'x'}`. -/
theorem c4_witness :
    ('a' ≠ 'b') ∧ ('b' ≠ 'x') ∧
      rename_ids [(['a'], ['x']), (['b'], ['x'])] ("ab".toList) =
        (("ab".toList).map
            (fun c => if c = 'a' then 'x' else if c = 'b' then 'x' else c),
          ("ab".toList).count 'a' + ("ab".toList).count 'b') :=
  ⟨by decide, by decide,
    c4_no_collision_check ("ab".toList) 'a' 'b' 'x' (by decide) (by decide)⟩

/-- C6, counterexample: on the document `<div id="m">x` — marker present,
opening `<div` present, but no closing `</div>` anywhere, so the
depth-counting scan never returns to depth 0 — the removal operation
raises nothing: it prints a warning and returns the document unchanged.
No `UnbalancedStructureError` exists in the code. -/
theorem c6_counterexample :
    removeSectionStep ("<div id=\"m\">x".toList) ("m".toList) =
      "<div id=\"m\">x".toList := by
  decide

/-- C6, amended: whenever the depth-counting scan from the located opening
tag never returns to depth 0 before end-of-document (the locator yields no
offset), the removal operation returns the document unchanged after a
printed warning — the "no partially modified document" half of the claim
holds, but via a warn-and-skip sentinel, not an exception. -/
theorem c6_unbalanced_returns_unchanged (html sid : List Char) (i ds : Nat)
    (hfind : strFindFrom html (sectionMarker sid) 0 = some i)
    (hrfind : strRfindUpTo html ("<div".toList) i = some ds)
    (hloc : locate_matching_close html ds = none) :
    removeSectionStep html sid = html := by
  simp only [removeSectionStep, hfind, hrfind, hloc]

/-- Witness for `c6_unbalanced_returns_unchanged` on `<div id="m">x`. -/
theorem c6_witness :
    strFindFrom ("<div id=\"m\">x".toList)
        (sectionMarker ("m".toList)) 0 = some 5 ∧
      strRfindUpTo ("<div id=\"m\">x".toList) ("<div".toList) 5 = some 0 ∧
      locate_matching_close ("<div id=\"m\">x".toList) 0 = none ∧
      removeSectionStep ("<div id=\"m\">x".toList) ("m".toList) =
        "<div id=\"m\">x".toList :=
  ⟨by decide, by decide, by decide,
    c6_unbalanced_returns_unchanged ("<div id=\"m\">x".toList) ("m".toList) 5 0
      (by decide) (by decide) (by decide)⟩

/-- C7, counterexample: tokenizing the malformed stylesheet `"a{"` (brace
depth never returns to zero) does not fail: the tokenizer returns normally
and passes the malformed text through verbatim as a single `rule` chunk —
there is no `UnterminatedBlockError` in the code. -/
theorem c7_counterexample :
    tokenize_style ("a\x7b".toList) = [⟨CKind.rule, "a\x7b".toList⟩] := by
  decide

/-- C7, amended: tokenization is total and never raises.  Whenever the main
loop reaches a chunk — at-rule, `:root` block, or plain rule alike — whose
brace scan never returns to depth 0 before end-of-input (`neverClosed`),
the malformed chunk is emitted normally as the final chunk, tagged with the
kind its branch assigns (`at-rule` for a leading `@`, `root` for a leading
`:root`, `rule` otherwise), with its text running verbatim to the end of
the input; scanning terminates normally. -/
theorem c7_unterminated_chunk_total (cs : List Char) (bp : Nat)
    (h2 : List.findIdx? (fun x => x = '{') (cs.dropWhile isCssWs) = some bp)
    (h3 : neverClosed ((cs.dropWhile isCssWs).drop (bp + 1)) 1 = true) :
    scanChunks cs =
      [⟨if (cs.dropWhile isCssWs).head? = some '@' then CKind.atRule
        else if (":root".toList).isPrefixOf (cs.dropWhile isCssWs) = true then
          CKind.root
        else CKind.rule, cs⟩] := by
  cases hcs : cs with
  | nil =>
    subst hcs
    simp at h2
  | cons c rest =>
    subst hcs
    cases hcs1 : (c :: rest).dropWhile isCssWs with
    | nil =>
      rw [hcs1] at h2
      simp at h2
    | cons c1 cs1' =>
      rw [hcs1] at h2 h3
      have hbp : bp < (c1 :: cs1').length := by
        have := List.findIdx?_eq_some_iff_findIdx_eq.mp h2
        omega
      have hscan : braceScan ((c1 :: cs1').drop (bp + 1)) 1 =
          ((c1 :: cs1').drop (bp + 1)).length :=
        braceScan_of_neverClosed _ _ h3
      have hj : bp + 1 + braceScan ((c1 :: cs1').drop (bp + 1)) 1 =
          (c1 :: cs1').length := by
        rw [hscan]
        simp only [List.length_drop]
        omega
      show scanChunksAux (c :: rest).length (c :: rest) = _
      cases hlen : (c :: rest).length with
      | zero => simp at hlen
      | succ f =>
        have hfin : ∀ k : CKind,
            (⟨k, (c :: rest).takeWhile isCssWs ++
                (c1 :: cs1').take
                  (bp + 1 + braceScan ((c1 :: cs1').drop (bp + 1)) 1)⟩ : Chunk) ::
              scanChunksAux f
                ((c1 :: cs1').drop
                  (bp + 1 + braceScan ((c1 :: cs1').drop (bp + 1)) 1)) =
            [⟨k, c :: rest⟩] := by
          intro k
          rw [hj, List.take_length, List.drop_length]
          have hz : scanChunksAux f ([] : List Char) = [] := by
            cases f <;> simp [scanChunksAux]
          rw [hz, ← hcs1]
          have hfix : (c :: rest).takeWhile isCssWs ++
              (c :: rest).dropWhile isCssWs = c :: rest :=
            List.takeWhile_append_dropWhile isCssWs (c :: rest)
          rw [hfix]
        by_cases hat : c1 = '@'
        · rw [if_pos (by simp [hat] : (c1 :: cs1').head? = some '@')]
          simp only [scanChunksAux, hcs1, if_pos hat]
          simp only [hcs1, h2]
          exact hfin CKind.atRule
        · rw [if_neg (by simp [hat] : ¬ (c1 :: cs1').head? = some '@')]
          by_cases hroot : (":root".toList).isPrefixOf (c1 :: cs1') = true
          · rw [if_pos hroot]
            simp only [scanChunksAux, hcs1, if_neg hat]
            simp only [hcs1, if_pos hroot, h2]
            exact hfin CKind.root
          · rw [if_neg hroot]
            simp only [scanChunksAux, hcs1, if_neg hat]
            simp only [hcs1, if_neg hroot, h2]
            exact hfin CKind.rule

/-- Witness for `c7_unterminated_chunk_total` on the unterminated at-rule
`"@media x{"` (the brace depth of the `@`-rule branch never returns to 0):
the whole input is emitted as one `at-rule` chunk. -/
theorem c7_witness :
    List.findIdx? (fun x => x = '{')
        (("@media x\x7b".toList).dropWhile isCssWs) = some 8 ∧
      neverClosed ((("@media x\x7b".toList).dropWhile isCssWs).drop 9) 1 = true ∧
      scanChunks ("@media x\x7b".toList) =
        [⟨if (("@media x\x7b".toList).dropWhile isCssWs).head? = some '@' then
            CKind.atRule
          else if (":root".toList).isPrefixOf
              (("@media x\x7b".toList).dropWhile isCssWs) = true then CKind.root
          else CKind.rule, "@media x\x7b".toList⟩] :=
  ⟨by decide, by decide,
    c7_unterminated_chunk_total ("@media x\x7b".toList) 8 (by decide) (by decide)⟩

/-- C8: rename completeness for `do_replacement`.  If the document consists
of designated, non-overlapping occurrences of the old identifier
`{etype}-{suffix}` separated by filler (`sepOk`: no other or overlapping
occurrence exists — note an occurrence inside a c-prefixed form
`c{etype}-{suffix}` counts, since the base id is its substring), and the
c-prefixed old form does not survive in the rewritten document, then every
occurrence — base form and derived-prefix form alike — is replaced with
the corresponding new form, and the returned count equals the number of
occurrences replaced. -/
theorem c8_rename_completeness (parts : List (List Char))
    (etype suffix newb : List Char)
    (hsep : sepOk (etype ++ ('-' :: suffix)) parts = true)
    (hc : occursIn (c_prefix_for etype ++ ('-' :: suffix))
        (joinWith (etype ++ ('-' :: newb)) parts) = false) :
    do_replacement (joinWith (etype ++ ('-' :: suffix)) parts)
        (etype ++ ('-' :: suffix)) newb etype =
      (joinWith (etype ++ ('-' :: newb)) parts, parts.length - 1) := by
  have hne : (etype ++ ('-' :: suffix)) ≠ [] := by simp
  have hsuf : (etype ++ ('-' :: suffix)).drop (etype.length + 1) = suffix := by
    have h : (etype ++ ('-' :: suffix)) = (etype ++ ['-']) ++ suffix := by simp
    rw [h]
    have hl : (etype ++ ['-']).length = etype.length + 1 := by simp
    rw [← hl, List.drop_left]
  have hcount := strCount_joinWith parts (etype ++ ('-' :: suffix)) hne hsep
  have hrepl := strReplace_joinWith parts (etype ++ ('-' :: suffix))
    (etype ++ ('-' :: newb)) hne hsep
  simp only [do_replacement, hsuf, hcount]
  by_cases hpos : 0 < parts.length - 1
  · rw [if_pos hpos, hrepl, strCount_of_not_occurs _ hc, if_neg (by omega)]
    simp
  · rw [if_neg hpos]
    have hparts : joinWith (etype ++ ('-' :: suffix)) parts
        = joinWith (etype ++ ('-' :: newb)) parts := by
      rcases parts with _ | ⟨s, _ | ⟨s2, rest⟩⟩
      · rfl
      · rfl
      · exfalso
        simp only [List.length_cons] at hpos
        omega
    rw [hparts, strCount_of_not_occurs _ hc, if_neg (by omega)]
    simp

/-- Witness for `c8_rename_completeness`: the spec's three-derived-forms
document `id="heading-ABCDEF" .cheading-ABCDEF #heading-ABCDEF x`
(the occurrence inside `.cheading-ABCDEF` is a designated occurrence of
the base id preceded by `c`), renamed to `heading-newname`: all three
forms are rewritten and the count is 3. -/
theorem c8_witness :
    sepOk ("heading".toList ++ ('-' :: "ABCDEF".toList))
        ["id=\"".toList, "\" .c".toList, " #".toList, " x".toList] = true ∧
      occursIn (c_prefix_for ("heading".toList) ++ ('-' :: "ABCDEF".toList))
        (joinWith ("heading".toList ++ ('-' :: "newname".toList))
          ["id=\"".toList, "\" .c".toList, " #".toList, " x".toList]) = false ∧
      do_replacement
          (joinWith ("heading".toList ++ ('-' :: "ABCDEF".toList))
            ["id=\"".toList, "\" .c".toList, " #".toList, " x".toList])
          ("heading".toList ++ ('-' :: "ABCDEF".toList))
          ("newname".toList) ("heading".toList) =
        (joinWith ("heading".toList ++ ('-' :: "newname".toList))
          ["id=\"".toList, "\" .c".toList, " #".toList, " x".toList], 3) :=
  ⟨by decide, by decide,
    c8_rename_completeness
      ["id=\"".toList, "\" .c".toList, " #".toList, " x".toList]
      ("heading".toList) ("ABCDEF".toList) ("newname".toList)
      (by decide) (by decide)⟩

/-- The structural situation in which one loop iteration of
`phase2_remove_mobile_sections` excises exactly the segment `A` of the
document `p ++ (A ++ s)`: the section marker is first found inside `A`,
the backward `rfind` for `<div` lands exactly on the start of `A`, and the
`<div>`-token stream of `A ++ s` is an open token at `A`'s start followed
by a balanced interior and the close token ending exactly at `A`'s end. -/
def SectionAt (p A s sid : List Char) : Prop :=
  (∃ i, strFindFrom (p ++ (A ++ s)) (sectionMarker sid) 0 = some i ∧
    strRfindUpTo (p ++ (A ++ s)) ("<div".toList) i = some p.length) ∧
  6 ≤ A.length ∧
  ∃ ws rest, divScan (A ++ s) p.length =
      (p.length, Tok.op) :: (ws ++ (p.length + A.length - 6, Tok.cl) :: rest) ∧
    balB (ws.map Prod.snd) 0 = true

/-- One loop iteration of `phase2_remove_mobile_sections` excises exactly
the designated section span. -/
theorem removeSectionStep_excises (p A s sid : List Char)
    (h : SectionAt p A s sid) :
    removeSectionStep (p ++ (A ++ s)) sid = p ++ s := by
  obtain ⟨⟨i, hfind, hrfind⟩, hA, ws, rest, hscan, hbal⟩ := h
  have hdrop : (p ++ (A ++ s)).drop p.length = A ++ s := List.drop_left p (A ++ s)
  have hloc : locate_matching_close (p ++ (A ++ s)) p.length =
      some (p.length + A.length) := by
    show locateFromTokens (divScan ((p ++ (A ++ s)).drop p.length) p.length) 0 = _
    rw [hdrop, hscan]
    rw [locate_of_shape rfl hbal]
    congr 1
    omega
  simp only [removeSectionStep, hfind, hrfind, hloc]
  rw [List.take_left]
  have h2 : (p ++ (A ++ s)).drop (p.length + A.length) = s := by
    have hgroup : p ++ (A ++ s) = (p ++ A) ++ s := by
      rw [List.append_assoc]
    rw [hgroup]
    have hl : (p ++ A).length = p.length + A.length := by simp
    rw [← hl, List.drop_left]
  rw [h2]

/-- C9: removal of two disjoint sections commutes.  For a document
`p ++ A ++ q ++ B ++ r` in which the marker of `sidA` designates exactly
the span `A` and the marker of `sidB` exactly the span `B` — both in the
original document and in the document left by removing the other section
first (offsets are re-located against the current document state by each
loop iteration) — removing `A` then `B` and removing `B` then `A` both
yield `p ++ q ++ r`. -/
theorem c9_removal_order_independent (p A q B r sidA sidB : List Char)
    (h1 : SectionAt p A (q ++ (B ++ r)) sidA)
    (h2 : SectionAt (p ++ (A ++ q)) B r sidB)
    (h3 : SectionAt (p ++ q) B r sidB)
    (h4 : SectionAt p A (q ++ r) sidA) :
    phase2_remove_mobile_sections [sidA, sidB]
        (p ++ (A ++ (q ++ (B ++ r)))) = p ++ (q ++ r) ∧
      phase2_remove_mobile_sections [sidB, sidA]
        (p ++ (A ++ (q ++ (B ++ r)))) = p ++ (q ++ r) := by
  constructor
  · show removeSectionStep
        (removeSectionStep (p ++ (A ++ (q ++ (B ++ r)))) sidA) sidB = p ++ (q ++ r)
    rw [removeSectionStep_excises p A (q ++ (B ++ r)) sidA h1]
    have hassoc : p ++ (q ++ (B ++ r)) = (p ++ q) ++ (B ++ r) := by
      rw [List.append_assoc]
    rw [hassoc, removeSectionStep_excises (p ++ q) B r sidB h3, List.append_assoc]
  · show removeSectionStep
        (removeSectionStep (p ++ (A ++ (q ++ (B ++ r)))) sidB) sidA = p ++ (q ++ r)
    have hassoc : p ++ (A ++ (q ++ (B ++ r))) = (p ++ (A ++ q)) ++ (B ++ r) := by
      simp [List.append_assoc]
    rw [hassoc, removeSectionStep_excises (p ++ (A ++ q)) B r sidB h2]
    have hassoc2 : (p ++ (A ++ q)) ++ r = p ++ (A ++ (q ++ r)) := by
      simp [List.append_assoc]
    rw [hassoc2, removeSectionStep_excises p A (q ++ r) sidA h4]

/-- Witness for `c9_removal_order_independent` on the document
`<div id="a"></div>x<div id="b"></div>y`: removing section `a` then `b`,
or `b` then `a`, both yield `xy`. -/
theorem c9_witness :
    SectionAt [] ("<div id=\"a\"></div>".toList)
        ("x".toList ++ ("<div id=\"b\"></div>".toList ++ "y".toList))
        ("a".toList) ∧
      SectionAt ([] ++ ("<div id=\"a\"></div>".toList ++ "x".toList))
        ("<div id=\"b\"></div>".toList) ("y".toList) ("b".toList) ∧
      SectionAt ([] ++ "x".toList) ("<div id=\"b\"></div>".toList)
        ("y".toList) ("b".toList) ∧
      SectionAt [] ("<div id=\"a\"></div>".toList)
        ("x".toList ++ "y".toList) ("a".toList) ∧
      phase2_remove_mobile_sections [("a".toList), ("b".toList)]
          ([] ++ ("<div id=\"a\"></div>".toList ++
            ("x".toList ++ ("<div id=\"b\"></div>".toList ++ "y".toList)))) =
        [] ++ ("x".toList ++ "y".toList) ∧
      phase2_remove_mobile_sections [("b".toList), ("a".toList)]
          ([] ++ ("<div id=\"a\"></div>".toList ++
            ("x".toList ++ ("<div id=\"b\"></div>".toList ++ "y".toList)))) =
        [] ++ ("x".toList ++ "y".toList) := by
  have h1 : SectionAt [] ("<div id=\"a\"></div>".toList)
      ("x".toList ++ ("<div id=\"b\"></div>".toList ++ "y".toList))
      ("a".toList) :=
    ⟨⟨5, by decide, by decide⟩, by decide,
      [], [(19, Tok.op), (31, Tok.cl)], by decide, by decide⟩
  have h2 : SectionAt ([] ++ ("<div id=\"a\"></div>".toList ++ "x".toList))
      ("<div id=\"b\"></div>".toList) ("y".toList) ("b".toList) :=
    ⟨⟨24, by decide, by decide⟩, by decide, [], [], by decide, by decide⟩
  have h3 : SectionAt ([] ++ "x".toList) ("<div id=\"b\"></div>".toList)
      ("y".toList) ("b".toList) :=
    ⟨⟨6, by decide, by decide⟩, by decide, [], [], by decide, by decide⟩
  have h4 : SectionAt [] ("<div id=\"a\"></div>".toList)
      ("x".toList ++ "y".toList) ("a".toList) :=
    ⟨⟨5, by decide, by decide⟩, by decide, [], [], by decide, by decide⟩
  have hmain := c9_removal_order_independent [] ("<div id=\"a\"></div>".toList)
    ("x".toList) ("<div id=\"b\"></div>".toList) ("y".toList)
    ("a".toList) ("b".toList) h1 h2 h3 h4
  exact ⟨h1, h2, h3, h4, hmain.1, hmain.2⟩

/-- C10: the CTA passes are guarded all-or-nothing rewrites.  For every
document in which the CTA pattern matches fewer than 15 times,
`phase1_deduplicate_ctas` (three-closing-tag pattern) and the
`revert_cta_v2` main transformation (two-closing-tag pattern) return the
document completely unchanged — the rewrite loop and, for the revert, the
CSS strip are never reached. -/
theorem c10_cta_threshold_guard (html : List Char) :
    ((ctaMatches 3 html).length < 15 → phase1_deduplicate_ctas html = html) ∧
      ((ctaMatches 2 html).length < 15 → revert_cta_main html = html) := by
  constructor
  · intro h
    simp only [phase1_deduplicate_ctas, if_pos h]
  · intro h
    simp only [revert_cta_main, if_pos h]

/-- Witness for `c10_cta_threshold_guard` on the empty document (zero
matches for both patterns). -/
theorem c10_witness :
    (ctaMatches 3 ([] : List Char)).length < 15 ∧
      (ctaMatches 2 ([] : List Char)).length < 15 ∧
      phase1_deduplicate_ctas ([] : List Char) = [] ∧
      revert_cta_main ([] : List Char) = [] :=
  ⟨by decide, by decide,
    (c10_cta_threshold_guard []).1 (by decide),
    (c10_cta_threshold_guard []).2 (by decide)⟩
